import Mathlib

/-!
Shallow embedding of the virtual-memory core of the `zihai` hypervisor
(`src/zihai/src/mm.rs`): the range-to-mapping solver `MapPairs::solve`, the
stack frame allocator, the stack ASID allocator, the page-table walk
`PagedAddrSpace::find_ppn`, the Sv39/Sv39x4 index functions and the
cross-space translator `translate_frame_read`, together with proofs of the
specification's properties about them.

Machine integers (`usize`, `u16`) are modelled as `Nat`; the explicitly
wrapping operations of the source (`wrapping_sub`, `wrapping_add`) are
modelled with `% 2 ^ 64` (resp. `% 2 ^ 16`).  Physical memory holding page
tables is modelled as a function from (table page number, slot index) to the
raw slot bits.  Panics are modelled by `Option`/truncated traces.
-/

/-- Embeds `PageMode::get_layout_for_level(level).align_in_frames()`:
starting from 1, the alignment in frames is shifted left by
`PAGE_ENTRIES_BITS` once per level.  (The "too much page levels" overflow
panic in the source is unreachable for the levels Sv39/Sv39x4 use, since
their level numbers are below 3.) -/
def alignInFrames (entriesBits : Nat) : Nat → Nat
  | 0 => 1
  | l + 1 => alignInFrames entriesBits l <<< entriesBits

/-- Embeds `PageLayout::page_size::<M>()`: `align_in_frames << FRAME_SIZE_BITS`. -/
def pageSizeOf (entriesBits frameSizeBits lvl : Nat) : Nat :=
  alignInFrames entriesBits lvl <<< frameSizeBits

/-- The descending inclusive level list `[b, b-1, ..., 0]` produced by
`LevelIter::falling_includes(b, 0)`.  This is the sequence yielded by both
`PageMode::visit_levels_until(PageLevel::leaf_level())` (with `b = MAX_PAGE_LEVELS - 1`)
and `PageMode::visit_levels_from(level)` (with `b = level`), as asserted by
`test_map_solve` in the source. -/
def fallingTo0 : Nat → List Nat
  | 0 => [0]
  | b + 1 => (b + 1) :: fallingTo0 b

/-- Embeds `usize::wrapping_sub` on 64-bit values. -/
def wrappingSub64 (a b : Nat) : Nat := (a + (2 ^ 64 - b % 2 ^ 64)) % 2 ^ 64

/-- One `(PageLevel, Range<VirtPageNum>)` segment produced by `MapPairs::solve`. -/
structure MapSeg where
  level : Nat
  lo : Nat
  hi : Nat
deriving DecidableEq, Repr

/-- `ve_cur` of `MapPairs::solve`: `align_cur * ((vpn + align_cur - 1) / align_cur)`. -/
def veAt (bits vpn j : Nat) : Nat :=
  alignInFrames bits j * ((vpn + alignInFrames bits j - 1) / alignInFrames bits j)

/-- `vs_cur` of `MapPairs::solve`: `align_cur * ((vpn + n) / align_cur)`. -/
def vsAt (bits vpn n j : Nat) : Nat :=
  alignInFrames bits j * ((vpn + n) / alignInFrames bits j)

/-- The inner loop of `MapPairs::solve` (`for j in M::visit_levels_from(i)`),
with `prev` holding `(ve_prev, vs_prev)` and `ans` the accumulated segments. -/
def solveInner (bits vpn n : Nat) : List Nat → Option (Nat × Nat) → List MapSeg → List MapSeg
  | [], _, ans => ans
  | j :: rest, prev, ans =>
    let ve := veAt bits vpn j
    let vs := vsAt bits vpn n j
    let ans2 := match prev with
      | some (vep, vsp) =>
        (ans ++ (if ve ≠ vep then [MapSeg.mk j ve vep] else [])) ++
          (if vsp ≠ vs then [MapSeg.mk j vsp vs] else [])
      | none => ans ++ (if ve ≠ vs then [MapSeg.mk j ve vs] else [])
    solveInner bits vpn n rest (some (ve, vs)) ans2

/-- The outer loop of `MapPairs::solve` (`for i in M::visit_levels_until(leaf)`):
skip levels whose alignment does not divide `vpn - ppn` (wrapping) or exceeds
`n`; on the first remaining level run the inner loop and stop. -/
def solveLevels (bits vpn ppn n : Nat) : List Nat → List MapSeg
  | [] => []
  | i :: rest =>
    let a := alignInFrames bits i
    if wrappingSub64 vpn ppn % a ≠ 0 ∨ n < a then solveLevels bits vpn ppn n rest
    else solveInner bits vpn n (fallingTo0 i) none []

/-- Embeds `MapPairs::solve(vpn, ppn, n, mode)` for a mode with the given
`PAGE_ENTRIES_BITS` and `MAX_PAGE_LEVELS`. -/
def mapPairsSolve (bits maxLevels vpn ppn n : Nat) : List MapSeg :=
  solveLevels bits vpn ppn n (fallingTo0 (maxLevels - 1))

/-- The two paging modes implemented by the source. -/
inductive PagingModeTag
  | sv39
  | sv39x4
deriving DecidableEq, Repr

/-- `PAGE_ENTRIES_BITS` of each mode (9 for both Sv39 and Sv39x4). -/
def PagingModeTag.entriesBits : PagingModeTag → Nat
  | .sv39 => 9
  | .sv39x4 => 9

/-- `MAX_PAGE_LEVELS` of each mode (3 for both Sv39 and Sv39x4). -/
def PagingModeTag.maxPageLevels : PagingModeTag → Nat
  | .sv39 => 3
  | .sv39x4 => 3

/-- `MapPairs::solve` at a concrete mode. -/
def PagingModeTag.solve (m : PagingModeTag) (vpn ppn n : Nat) : List MapSeg :=
  mapPairsSolve m.entriesBits m.maxPageLevels vpn ppn n

/-- A segment covers a virtual page `p` iff `lo ≤ p < hi`. -/
def segCovers (s : MapSeg) (p : Nat) : Prop := s.lo ≤ p ∧ p < s.hi

/-- A segment list covers `p` iff some member does. -/
def covers (L : List MapSeg) (p : Nat) : Prop := ∃ s ∈ L, segCovers s p

/-- Two segments are disjoint as half-open ranges. -/
def segDisj (s t : MapSeg) : Prop := s.hi ≤ t.lo ∨ t.hi ≤ s.lo

/-- State of `StackFrameAllocator`: watermark `current`, region end `endp`,
and the `recycled` stack of freed pages (a `Vec`, pushed/popped at the end). -/
structure StackFrameAllocator where
  current : Nat
  endp : Nat
  recycled : List Nat
deriving DecidableEq, Repr

/-- `PhysPageNum::next_page`: `wrapping_add(1)` on a 64-bit `usize`. -/
def nextPage (p : Nat) : Nat := (p + 1) % 2 ^ 64

/-- `PhysPageNum::is_within_range(begin, end)`: ordinary containment when
`begin ≤ end`, wrapped containment otherwise. -/
def isWithinRange (p b e : Nat) : Bool :=
  if b ≤ e then decide (b ≤ p) && decide (p < e)
  else decide (b ≤ p) || decide (p < e)

/-- `StackFrameAllocator::allocate_frame`: pop a recycled page if any, else
hand out the watermark unless it has reached the region end. -/
def allocateFrame (s : StackFrameAllocator) : Option Nat × StackFrameAllocator :=
  match s.recycled.getLast? with
  | some q => (some q, { s with recycled := s.recycled.dropLast })
  | none =>
    if s.current = s.endp then (none, s)
    else (some s.current, { s with current := nextPage s.current })

/-- `StackFrameAllocator::deallocate_frame`: `none` models the panic
("Frame ppn has not been allocated!") raised when the page lies within
`[current, end)` or is already recycled; otherwise push it. -/
def deallocateFrame (s : StackFrameAllocator) (p : Nat) : Option StackFrameAllocator :=
  if isWithinRange p s.current s.endp || s.recycled.contains p then none
  else some { s with recycled := s.recycled ++ [p] }

/-- One call against the frame allocator. -/
inductive FOp
  | alloc
  | dealloc (p : Nat)
deriving DecidableEq, Repr

/-- Observable outcome of one frame-allocator call; `panicked` marks the
abort of `deallocate_frame`, which ends the trace. -/
inductive FEvent
  | allocOk (p : Nat)
  | allocFail
  | deallocOk (p : Nat)
  | panicked
deriving DecidableEq, Repr

/-- Run a sequence of calls against a `StackFrameAllocator`, returning the
event trace and the final state (`none` once a call panicked). -/
def runFrom (s : StackFrameAllocator) : List FOp → List FEvent × Option StackFrameAllocator
  | [] => ([], some s)
  | FOp.alloc :: rest =>
    match allocateFrame s with
    | (some p, s2) =>
      let r := runFrom s2 rest
      (FEvent.allocOk p :: r.1, r.2)
    | (none, s2) =>
      let r := runFrom s2 rest
      (FEvent.allocFail :: r.1, r.2)
  | FOp.dealloc p :: rest =>
    match deallocateFrame s p with
    | some s2 =>
      let r := runFrom s2 rest
      (FEvent.deallocOk p :: r.1, r.2)
    | none => ([FEvent.panicked], none)

/-- Ghost status of one page relative to the allocator. -/
inductive PSt
  | fresh
  | inflight
  | recycled
deriving DecidableEq, Repr

/-- Per-page automaton step: a page in flight may not be issued again, a page
in the recycled pool may not be deallocated again.  `none` is a violation. -/
def confStep (p : Nat) (st : PSt) : FEvent → Option PSt
  | FEvent.allocOk q =>
    if q = p then
      match st with
      | PSt.inflight => none
      | _ => some PSt.inflight
    else some st
  | FEvent.deallocOk q =>
    if q = p then
      match st with
      | PSt.recycled => none
      | _ => some PSt.recycled
    else some st
  | _ => some st

/-- An event trace conforms to the per-page automaton for page `p`. -/
def Conf (p : Nat) : PSt → List FEvent → Prop
  | _, [] => True
  | st, e :: evs =>
    match confStep p st e with
    | none => False
    | some st2 => Conf p st2 evs

/-- Ghost set of pages issued and not yet returned, folded over the trace. -/
def outStep (out : List Nat) : FEvent → List Nat
  | FEvent.allocOk p => p :: out
  | FEvent.deallocOk p => out.erase p
  | _ => out

/-- Status of page `p` given the allocator state and the ghost out-set. -/
def pstOf (p : Nat) (s : StackFrameAllocator) (out : List Nat) : PSt :=
  if p ∈ out then PSt.inflight
  else if p ∈ s.recycled then PSt.recycled
  else PSt.fresh

/-- Invariant tying a `StackFrameAllocator` state to the ghost out-set. -/
structure FaInv (s : StackFrameAllocator) (out : List Nat) : Prop where
  currentLt : s.current < 2 ^ 64
  endLt : s.endp < 2 ^ 64
  outNodup : out.Nodup
  recNodup : s.recycled.Nodup
  outRec : ∀ q ∈ out, q ∉ s.recycled
  outRange : ∀ q ∈ out, isWithinRange q s.current s.endp = false
  recRange : ∀ q ∈ s.recycled, isWithinRange q s.current s.endp = false

/-- State of `StackAsidAllocator` (`AddressSpaceId` is a `u16`). -/
structure StackAsidAllocator where
  current : Nat
  exhausted : Bool
  maxAsid : Nat
  recycled : List Nat
deriving DecidableEq, Repr

/-- `AddressSpaceId::next_asid(max)`: `None` when the tag has reached `max`,
else the tag plus one (`wrapping_add` on `u16`). -/
def nextAsid (t maxAsid : Nat) : Option Nat :=
  if maxAsid ≤ t then none else some ((t + 1) % 2 ^ 16)

/-- `StackAsidAllocator::new(max_asid)`: starts at `DEFAULT_ASID = 0`. -/
def StackAsidAllocator.new (maxAsid : Nat) : StackAsidAllocator :=
  ⟨0, false, maxAsid, []⟩

/-- `StackAsidAllocator::allocate_asid`. -/
def allocateAsid (s : StackAsidAllocator) : Option Nat × StackAsidAllocator :=
  match s.recycled.getLast? with
  | some a => (some a, { s with recycled := s.recycled.dropLast })
  | none =>
    if s.exhausted then (none, s)
    else if s.current = s.maxAsid then (some s.maxAsid, { s with exhausted := true })
    else
      match nextAsid s.current s.maxAsid with
      | some nxt => (some s.current, { s with current := nxt })
      | none => (none, s)

/-- `StackAsidAllocator::deallocate_asid`: `none` models the panic
("Asid has not been allocated!") raised when `next_asid` is `None`
(i.e. the tag is at or above `max`) or the tag is already recycled. -/
def deallocateAsid (s : StackAsidAllocator) (a : Nat) : Option StackAsidAllocator :=
  if (nextAsid a s.maxAsid).isNone || s.recycled.contains a then none
  else some { s with recycled := s.recycled ++ [a] }

/-- Results of `k` successive `allocate_asid` calls. -/
def allocAsidSeq (s : StackAsidAllocator) : Nat → List (Option Nat)
  | 0 => []
  | k + 1 =>
    let r := allocateAsid s
    r.1 :: allocAsidSeq r.2 k

/-- `Sv39PageEntry::ppn()`: bits 10..54 of the raw entry. -/
def entryGetPpn (bits : Nat) : Nat := (bits >>> 10) &&& (2 ^ 44 - 1)

/-- `slot_try_get_entry` succeeds iff the V flag (bit 0) is set. -/
def slotValid (bits : Nat) : Bool := bits &&& 1 == 1

/-- `entry_is_leaf_page`: any of R/W/X (bits 1..3) set. -/
def entryIsLeaf (bits : Nat) : Bool := bits &&& 14 != 0

/-- `PageError` returned by `PagedAddrSpace::find_ppn`. -/
inductive PageError
  | InvalidEntry
  | NotLeafInLowestPage
deriving DecidableEq, Repr

/-- The loop of `PagedAddrSpace::find_ppn` over the remaining levels; page
tables live in `mem : table page number → slot index → raw slot bits`. -/
def findPpnAux (mem : Nat → Nat → Nat) (vpnIdx : Nat → Nat → Nat) (vpn : Nat) :
    Nat → List Nat → Except PageError (Nat × Nat)
  | _, [] => Except.error PageError.NotLeafInLowestPage
  | tablePpn, lvl :: rest =>
    let bits := mem tablePpn (vpnIdx vpn lvl)
    if slotValid bits then
      if entryIsLeaf bits then Except.ok (bits, lvl)
      else findPpnAux mem vpnIdx vpn (entryGetPpn bits) rest
    else Except.error PageError.InvalidEntry

/-- `PagedAddrSpace::find_ppn(vpn)`: walk `visit_levels_until(leaf_level())`
= `[MAX_PAGE_LEVELS-1, ..., 0]` from the root table. -/
def findPpn (mem : Nat → Nat → Nat) (vpnIdx : Nat → Nat → Nat)
    (maxLevels root vpn : Nat) : Except PageError (Nat × Nat) :=
  findPpnAux mem vpnIdx vpn root (fallingTo0 (maxLevels - 1))

/-- Modelled from the claim's description of the walk for a 3-level mode:
at each level from root (2) to leaf (0), an invalid slot fails with
`InvalidEntry`; a valid leaf returns the entry and its level; a valid
non-leaf at level 0 fails with `NotLeafInLowestPage`. -/
def findPpnSpec (mem : Nat → Nat → Nat) (vpnIdx : Nat → Nat → Nat)
    (root vpn : Nat) : Except PageError (Nat × Nat) :=
  let s2 := mem root (vpnIdx vpn 2)
  if slotValid s2 = false then Except.error PageError.InvalidEntry
  else if entryIsLeaf s2 then Except.ok (s2, 2)
  else
    let s1 := mem (entryGetPpn s2) (vpnIdx vpn 1)
    if slotValid s1 = false then Except.error PageError.InvalidEntry
    else if entryIsLeaf s1 then Except.ok (s1, 1)
    else
      let s0 := mem (entryGetPpn s1) (vpnIdx vpn 0)
      if slotValid s0 = false then Except.error PageError.InvalidEntry
      else if entryIsLeaf s0 then Except.ok (s0, 0)
      else Except.error PageError.NotLeafInLowestPage

/-- `Sv39::vpn_index`: `(vpn >> (level * 9)) & 511`. -/
def sv39VpnIndex (vpn lvl : Nat) : Nat := (vpn >>> (lvl * 9)) &&& 511

/-- `Sv39x4::vpn_mask_by_level`: 511 for levels 0 and 1, 2047 for level 2
(the source asserts `level ≤ 2`). -/
def sv39x4VpnMaskByLevel (lvl : Nat) : Nat := if lvl ≤ 1 then 511 else 2047

/-- `Sv39x4::vpn_index`: `(vpn >> (level * 9)) & vpn_mask_by_level(level)`. -/
def sv39x4VpnIndex (vpn lvl : Nat) : Nat :=
  (vpn >>> (lvl * 9)) &&& sv39x4VpnMaskByLevel lvl

/-- `Sv39x4::vpn_index_range` as a (start, end) pair: the end is clamped to
`mask + 1` when, at levels 0 or 1, the range spans into the next
higher-level block. -/
def sv39x4VpnIndexRange (vstart vend lvl : Nat) : Nat × Nat :=
  let mask := sv39x4VpnMaskByLevel lvl
  let start := (vstart >>> (lvl * 9)) &&& mask
  let e := (vend >>> (lvl * 9)) &&& mask
  if lvl ≤ 1 then
    let startIdx1 := vstart >>> ((lvl + 1) * 9)
    let endIdx1 := vend >>> ((lvl + 1) * 9)
    if startIdx1 < endIdx1 then (start, mask + 1) else (start, e)
  else (start, e)

/-- `VirtAddr::page_offset(lvl)`: `vaddr & (page_size(lvl) - 1)`. -/
def pageOffsetOf (bits frameBits vaddr lvl : Nat) : Nat :=
  vaddr &&& (pageSizeOf bits frameBits lvl - 1)

/-- The `while remaining_len > 0` loop of `translate_frame_read`; the
callback is modelled by accumulating the `(ppn, offset, length)` fragments.
`cur_len` is `remaining_len` clamped to the current level's full page size,
the virtual page then advances by the level's alignment
(`next_page_by_level`, a wrapping add) and is re-resolved via `find_ppn`. -/
def translateLoop (mem : Nat → Nat → Nat) (vpnIdx : Nat → Nat → Nat)
    (bits frameBits maxLevels root : Nat)
    (vpn2 remaining curOffset entry lvl : Nat) (acc : List (Nat × Nat × Nat)) :
    Except PageError (List (Nat × Nat × Nat)) :=
  if remaining = 0 then Except.ok acc
  else
    let ppn := entryGetPpn entry
    let ps := pageSizeOf bits frameBits lvl
    let curLen := if remaining ≤ ps then remaining else ps
    let acc2 := acc ++ [(ppn, curOffset, curLen)]
    if remaining - curLen = 0 then Except.ok acc2
    else
      let vpn3 := (vpn2 + alignInFrames bits lvl) % 2 ^ 64
      match findPpn mem vpnIdx maxLevels root vpn3 with
      | Except.error e => Except.error e
      | Except.ok (entry2, lvl2) =>
        translateLoop mem vpnIdx bits frameBits maxLevels root vpn3
          (remaining - curLen) 0 entry2 lvl2 acc2
termination_by remaining
decreasing_by
  have h1 : ∀ l, 0 < alignInFrames bits l := by
    intro l
    induction l with
    | zero => exact Nat.one_pos
    | succ k ih =>
      simpa [alignInFrames, Nat.shiftLeft_eq] using
        Nat.mul_pos ih (pow_pos (by norm_num : (0:Nat) < 2) bits)
  have hps : 0 < ps := by
    simpa [ps, pageSizeOf, Nat.shiftLeft_eq] using
      Nat.mul_pos (h1 lvl) (pow_pos (by norm_num : (0:Nat) < 2) frameBits)
  have hcl : 0 < curLen := by
    simp only [curLen]
    split <;> omega
  exact Nat.sub_lt (by omega) hcl

/-- `translate_frame_read(as2, vaddr2, len_bytes2, f)`: initial resolution of
the starting page, then the fragment loop. -/
def translateFrameRead (mem : Nat → Nat → Nat) (vpnIdx : Nat → Nat → Nat)
    (bits frameBits maxLevels root vaddr lenBytes : Nat) :
    Except PageError (List (Nat × Nat × Nat)) :=
  let vpn2 := vaddr >>> frameBits
  match findPpn mem vpnIdx maxLevels root vpn2 with
  | Except.error e => Except.error e
  | Except.ok (entry, lvl) =>
    translateLoop mem vpnIdx bits frameBits maxLevels root vpn2 lenBytes
      (pageOffsetOf bits frameBits vaddr lvl) entry lvl []

/-- A concrete two-leaf guest address space: the root table at page 100
points (slot 0) to a level-1 table at page 200, which points (slot 0) to a
level-0 table at page 300, whose slots 0 and 1 are valid leaf entries
(V|R flags) mapping to physical pages 10 and 20. -/
def memC5 : Nat → Nat → Nat := fun t i =>
  if t = 100 ∧ i = 0 then (200 <<< 10) ||| 1
  else if t = 200 ∧ i = 0 then (300 <<< 10) ||| 1
  else if t = 300 ∧ i = 0 then (10 <<< 10) ||| 3
  else if t = 300 ∧ i = 1 then (20 <<< 10) ||| 3
  else 0

/-! ### Arithmetic facts about level alignments and the solver's rounding -/

theorem alignInFrames_succ (b j : Nat) :
    alignInFrames b (j + 1) = alignInFrames b j * 2 ^ b := by
  simp [alignInFrames, Nat.shiftLeft_eq]

theorem alignInFrames_pos (b j : Nat) : 0 < alignInFrames b j := by
  induction j with
  | zero => exact Nat.one_pos
  | succ k ih =>
    rw [alignInFrames_succ]
    exact Nat.mul_pos ih (pow_pos (by norm_num) b)

theorem alignInFrames_dvd_succ (b j : Nat) :
    alignInFrames b j ∣ alignInFrames b (j + 1) :=
  ⟨2 ^ b, alignInFrames_succ b j⟩

theorem alignInFrames_dvd_of_le (b : Nat) {j k : Nat} (h : j ≤ k) :
    alignInFrames b j ∣ alignInFrames b k := by
  induction h with
  | refl => exact dvd_rfl
  | step _ ih => exact ih.trans (alignInFrames_dvd_succ b _)

theorem veAt_zero (b vpn : Nat) : veAt b vpn 0 = vpn := by
  simp [veAt, alignInFrames]

theorem vsAt_zero (b vpn n : Nat) : vsAt b vpn n 0 = vpn + n := by
  simp [vsAt, alignInFrames]

theorem le_veAt (b vpn j : Nat) : vpn ≤ veAt b vpn j := by
  unfold veAt
  have hpos := alignInFrames_pos b j
  have hdm := Nat.div_add_mod (vpn + alignInFrames b j - 1) (alignInFrames b j)
  have hlt := Nat.mod_lt (vpn + alignInFrames b j - 1) hpos
  omega

theorem vsAt_le (b vpn n j : Nat) : vsAt b vpn n j ≤ vpn + n := by
  unfold vsAt
  calc alignInFrames b j * ((vpn + n) / alignInFrames b j)
      = ((vpn + n) / alignInFrames b j) * alignInFrames b j := Nat.mul_comm _ _
    _ ≤ vpn + n := Nat.div_mul_le_self _ _

theorem dvd_veAt (b vpn j : Nat) : alignInFrames b j ∣ veAt b vpn j :=
  dvd_mul_right _ _

theorem dvd_vsAt (b vpn n j : Nat) : alignInFrames b j ∣ vsAt b vpn n j :=
  dvd_mul_right _ _

theorem veAt_le_of (b vpn j : Nat) {m : Nat} (h1 : alignInFrames b j ∣ m)
    (h2 : vpn ≤ m) : veAt b vpn j ≤ m := by
  have hpos := alignInFrames_pos b j
  rcases h1 with ⟨k, rfl⟩
  unfold veAt
  have hq : (vpn + alignInFrames b j - 1) / alignInFrames b j < k + 1 := by
    rw [Nat.div_lt_iff_lt_mul hpos]
    have h3 : (k + 1) * alignInFrames b j = alignInFrames b j * k + alignInFrames b j := by
      ring
    omega
  exact Nat.mul_le_mul_left _ (by omega)

theorem le_vsAt_of (b vpn n j : Nat) {m : Nat} (h1 : alignInFrames b j ∣ m)
    (h2 : m ≤ vpn + n) : m ≤ vsAt b vpn n j := by
  have hpos := alignInFrames_pos b j
  rcases h1 with ⟨k, rfl⟩
  unfold vsAt
  have hq : k ≤ (vpn + n) / alignInFrames b j := by
    rw [Nat.le_div_iff_mul_le hpos]
    have h3 : k * alignInFrames b j = alignInFrames b j * k := by ring
    omega
  exact Nat.mul_le_mul_left _ hq

theorem veAt_mono (b vpn j : Nat) : veAt b vpn j ≤ veAt b vpn (j + 1) :=
  veAt_le_of b vpn j ((alignInFrames_dvd_succ b j).trans (dvd_veAt b vpn (j + 1)))
    (le_veAt b vpn (j + 1))

theorem vsAt_anti (b vpn n j : Nat) : vsAt b vpn n (j + 1) ≤ vsAt b vpn n j :=
  le_vsAt_of b vpn n j ((alignInFrames_dvd_succ b j).trans (dvd_vsAt b vpn n (j + 1)))
    (vsAt_le b vpn n (j + 1))

theorem veAt_le_add_align (b vpn j : Nat) :
    veAt b vpn j ≤ vpn + alignInFrames b j := by
  have hpos := alignInFrames_pos b j
  have hdm := Nat.div_add_mod vpn (alignInFrames b j)
  have hlt := Nat.mod_lt vpn hpos
  have h1 : veAt b vpn j ≤ alignInFrames b j * (vpn / alignInFrames b j + 1) := by
    apply veAt_le_of b vpn j ⟨vpn / alignInFrames b j + 1, rfl⟩
    rw [Nat.mul_succ]
    omega
  rw [Nat.mul_succ] at h1
  omega

theorem veAt_le_vsAt (b vpn n j : Nat) (h : alignInFrames b j ≤ n) :
    veAt b vpn j ≤ vsAt b vpn n j := by
  apply le_vsAt_of b vpn n j (dvd_veAt b vpn j)
  have := veAt_le_add_align b vpn j
  omega

theorem veAt_eq_of_dvd (b vpn j : Nat) (h : alignInFrames b j ∣ vpn) :
    veAt b vpn j = vpn :=
  Nat.le_antisymm (veAt_le_of b vpn j h le_rfl) (le_veAt b vpn j)

theorem vsAt_eq_of_dvd (b vpn n j : Nat) (h : alignInFrames b j ∣ (vpn + n)) :
    vsAt b vpn n j = vpn + n :=
  Nat.le_antisymm (vsAt_le b vpn n j) (le_vsAt_of b vpn n j h le_rfl)

/-! ### Structure of the solver's inner loop -/

theorem covers_append (L M : List MapSeg) (p : Nat) :
    covers (L ++ M) p ↔ covers L p ∨ covers M p := by
  simp [covers, List.mem_append, or_and_right, exists_or]

theorem covers_nil (p : Nat) : covers [] p ↔ False := by
  simp [covers]

theorem covers_single (s : MapSeg) (p : Nat) :
    covers [s] p ↔ s.lo ≤ p ∧ p < s.hi := by
  simp [covers, segCovers]

theorem solveInner_cons_some (b vpn n j : Nat) (rest : List Nat)
    (vep vsp : Nat) (ans : List MapSeg) :
    solveInner b vpn n (j :: rest) (some (vep, vsp)) ans =
      solveInner b vpn n rest (some (veAt b vpn j, vsAt b vpn n j))
        ((ans ++ (if veAt b vpn j ≠ vep then [MapSeg.mk j (veAt b vpn j) vep] else [])) ++
          (if vsp ≠ vsAt b vpn n j then [MapSeg.mk j vsp (vsAt b vpn n j)] else [])) := rfl

theorem solveInner_cons_none (b vpn n j : Nat) (rest : List Nat) (ans : List MapSeg) :
    solveInner b vpn n (j :: rest) none ans =
      solveInner b vpn n rest (some (veAt b vpn j, vsAt b vpn n j))
        (ans ++ (if veAt b vpn j ≠ vsAt b vpn n j
          then [MapSeg.mk j (veAt b vpn j) (vsAt b vpn n j)] else [])) := rfl

theorem solveInner_append (b vpn n : Nat) (js : List Nat) :
    ∀ (prev : Option (Nat × Nat)) (ans : List MapSeg),
      solveInner b vpn n js prev ans = ans ++ solveInner b vpn n js prev [] := by
  induction js with
  | nil => intro prev ans; simp [solveInner]
  | cons j rest ih =>
    intro prev ans
    cases prev with
    | none =>
      rw [solveInner_cons_none, solveInner_cons_none]
      rw [ih _ (ans ++ _), ih _ ([] ++ _)]
      simp [List.append_assoc]
    | some pr =>
      obtain ⟨vep, vsp⟩ := pr
      rw [solveInner_cons_some, solveInner_cons_some]
      rw [ih _ ((ans ++ _) ++ _), ih _ (([] ++ _) ++ _)]
      simp [List.append_assoc]

theorem solveInner_nil (b vpn n : Nat) (prev : Option (Nat × Nat)) (ans : List MapSeg) :
    solveInner b vpn n [] prev ans = ans := rfl

theorem mem_if_push {s : MapSeg} {j lo hi : Nat} (c : Prop) [Decidable c]
    (hs : s ∈ (if c then [MapSeg.mk j lo hi] else [])) :
    s = MapSeg.mk j lo hi ∧ c := by
  by_cases hc : c
  · rw [if_pos hc] at hs
    simp at hs
    exact ⟨hs, hc⟩
  · rw [if_neg hc] at hs
    simp at hs

theorem covers_if_push (c : Prop) [Decidable c] (j lo hi p : Nat) :
    covers (if c then [MapSeg.mk j lo hi] else []) p ↔ c ∧ lo ≤ p ∧ p < hi := by
  by_cases hc : c
  · rw [if_pos hc, covers_single]
    simp [hc]
  · rw [if_neg hc, covers_nil]
    simp [hc]

theorem pairwise_if_push (c : Prop) [Decidable c] (j lo hi : Nat) :
    List.Pairwise segDisj (if c then [MapSeg.mk j lo hi] else []) := by
  by_cases hc : c <;> simp [hc]

/-- Correctness of the inner loop of `MapPairs::solve` when entered at level
`j` with previous boundaries `(P, Q)`: the produced segments exactly cover
`[vpn, P) ∪ [Q, vpn + n)`, are nonempty, aligned, of level at most `j`, and
pairwise disjoint. -/
theorem solveInner_spec (b vpn n : Nat) : ∀ (j P Q : Nat),
    alignInFrames b j ∣ P → alignInFrames b j ∣ Q →
    veAt b vpn j ≤ P → Q ≤ vsAt b vpn n j → P ≤ Q →
    (∀ p, covers (solveInner b vpn n (fallingTo0 j) (some (P, Q)) []) p ↔
      ((vpn ≤ p ∧ p < P) ∨ (Q ≤ p ∧ p < vpn + n)))
    ∧ (∀ s ∈ solveInner b vpn n (fallingTo0 j) (some (P, Q)) [],
        s.lo < s.hi ∧ alignInFrames b s.level ∣ s.lo ∧
          alignInFrames b s.level ∣ s.hi ∧ s.level ≤ j)
    ∧ List.Pairwise segDisj (solveInner b vpn n (fallingTo0 j) (some (P, Q)) []) := by
  intro j
  induction j with
  | zero =>
    intro P Q hdP hdQ hveP hQvs hPQ
    rw [veAt_zero] at hveP
    rw [vsAt_zero] at hQvs
    rw [show fallingTo0 0 = [0] from rfl, solveInner_cons_some, solveInner_nil,
      veAt_zero, vsAt_zero]
    simp only [List.nil_append]
    refine ⟨?_, ?_, ?_⟩
    · intro p
      rw [covers_append, covers_if_push, covers_if_push]
      omega
    · intro s hs
      rw [List.mem_append] at hs
      rcases hs with hs | hs
      · obtain ⟨rfl, hne⟩ := mem_if_push _ hs
        exact ⟨by dsimp only; omega, one_dvd _, one_dvd _, le_rfl⟩
      · obtain ⟨rfl, hne⟩ := mem_if_push _ hs
        exact ⟨by dsimp only; omega, one_dvd _, one_dvd _, le_rfl⟩
    · rw [List.pairwise_append]
      refine ⟨pairwise_if_push _ _ _ _, pairwise_if_push _ _ _ _, ?_⟩
      intro a ha t ht
      obtain ⟨rfl, _⟩ := mem_if_push _ ha
      obtain ⟨rfl, _⟩ := mem_if_push _ ht
      left
      exact hPQ
  | succ j ih =>
    intro P Q hdP hdQ hveP hQvs hPQ
    have hv1 : vpn ≤ veAt b vpn (j + 1) := le_veAt b vpn (j + 1)
    have hv5 : vsAt b vpn n (j + 1) ≤ vpn + n := vsAt_le b vpn n (j + 1)
    obtain ⟨hcov, hmem, hpair⟩ := ih (veAt b vpn (j + 1)) (vsAt b vpn n (j + 1))
      ((alignInFrames_dvd_succ b j).trans (dvd_veAt b vpn (j + 1)))
      ((alignInFrames_dvd_succ b j).trans (dvd_vsAt b vpn n (j + 1)))
      (veAt_mono b vpn j) (vsAt_anti b vpn n j) (by omega)
    have hside : veAt b vpn (j + 1) < vsAt b vpn n (j + 1) →
        ∀ t ∈ solveInner b vpn n (fallingTo0 j)
          (some (veAt b vpn (j + 1), vsAt b vpn n (j + 1))) [],
          t.hi ≤ veAt b vpn (j + 1) ∨ vsAt b vpn n (j + 1) ≤ t.lo := by
      intro hlt t ht
      have htlh := (hmem t ht).1
      by_cases hlo : vsAt b vpn n (j + 1) ≤ t.lo
      · right; exact hlo
      left
      push_neg at hlo
      by_contra hhi
      push_neg at hhi
      have h1 : covers (solveInner b vpn n (fallingTo0 j)
          (some (veAt b vpn (j + 1), vsAt b vpn n (j + 1))) []) t.lo :=
        ⟨t, ht, le_rfl, htlh⟩
      rw [hcov t.lo] at h1
      have h2 : t.lo < veAt b vpn (j + 1) := by omega
      have h3 : covers (solveInner b vpn n (fallingTo0 j)
          (some (veAt b vpn (j + 1), vsAt b vpn n (j + 1))) [])
          (veAt b vpn (j + 1)) := ⟨t, ht, by omega, by omega⟩
      rw [hcov _] at h3
      omega
    rw [show fallingTo0 (j + 1) = (j + 1) :: fallingTo0 j from rfl,
      solveInner_cons_some, solveInner_append]
    simp only [List.nil_append]
    refine ⟨?_, ?_, ?_⟩
    · intro p
      rw [covers_append, covers_append, covers_if_push, covers_if_push, hcov p]
      omega
    · intro s hs
      rw [List.mem_append, List.mem_append] at hs
      rcases hs with (hs | hs) | hs
      · obtain ⟨rfl, hne⟩ := mem_if_push _ hs
        exact ⟨by dsimp only; omega, dvd_veAt b vpn (j + 1), hdP, le_rfl⟩
      · obtain ⟨rfl, hne⟩ := mem_if_push _ hs
        exact ⟨by dsimp only; omega, hdQ, dvd_vsAt b vpn n (j + 1), le_rfl⟩
      · obtain ⟨h1, h2, h3, h4⟩ := hmem s hs
        exact ⟨h1, h2, h3, by omega⟩
    · rw [List.pairwise_append, List.pairwise_append]
      refine ⟨⟨pairwise_if_push _ _ _ _, pairwise_if_push _ _ _ _, ?_⟩, hpair, ?_⟩
      · intro a ha t ht
        obtain ⟨rfl, _⟩ := mem_if_push _ ha
        obtain ⟨rfl, _⟩ := mem_if_push _ ht
        left
        exact hPQ
      · intro a ha t ht
        rw [List.mem_append] at ha
        rcases ha with ha | ha
        · obtain ⟨rfl, hne⟩ := mem_if_push _ ha
          rcases hside (by omega) t ht with h | h
          · right; exact h
          · left
            show P ≤ t.lo
            omega
        · obtain ⟨rfl, hne⟩ := mem_if_push _ ha
          rcases hside (by omega) t ht with h | h
          · right
            show t.hi ≤ Q
            omega
          · left; exact h

theorem solveInner_none_eq (b vpn n i : Nat) (ans : List MapSeg) :
    solveInner b vpn n (fallingTo0 i) none ans =
      solveInner b vpn n (fallingTo0 i) (some (vsAt b vpn n i, vsAt b vpn n i)) ans := by
  cases i with
  | zero =>
    rw [show fallingTo0 0 = [0] from rfl, solveInner_cons_none, solveInner_cons_some]
    simp
  | succ k =>
    rw [show fallingTo0 (k + 1) = (k + 1) :: fallingTo0 k from rfl, solveInner_cons_none,
      solveInner_cons_some]
    simp

/-- Correctness of the inner loop entered (with no previous boundaries) at a
level whose alignment is at most `n`: the segments exactly cover
`[vpn, vpn + n)`, are nonempty, aligned, of level at most `i`, disjoint. -/
theorem solveChosen_spec (b vpn n i : Nat) (hn : alignInFrames b i ≤ n) :
    (∀ p, covers (solveInner b vpn n (fallingTo0 i) none []) p ↔
      (vpn ≤ p ∧ p < vpn + n))
    ∧ (∀ s ∈ solveInner b vpn n (fallingTo0 i) none [],
        s.lo < s.hi ∧ alignInFrames b s.level ∣ s.lo ∧
          alignInFrames b s.level ∣ s.hi ∧ s.level ≤ i)
    ∧ List.Pairwise segDisj (solveInner b vpn n (fallingTo0 i) none []) := by
  rw [solveInner_none_eq]
  have hvv := veAt_le_vsAt b vpn n i hn
  have hv1 : vpn ≤ veAt b vpn i := le_veAt b vpn i
  have hv2 : vsAt b vpn n i ≤ vpn + n := vsAt_le b vpn n i
  obtain ⟨hcov, hmem, hpair⟩ := solveInner_spec b vpn n i (vsAt b vpn n i) (vsAt b vpn n i)
    (dvd_vsAt b vpn n i) (dvd_vsAt b vpn n i) hvv le_rfl le_rfl
  refine ⟨?_, hmem, hpair⟩
  intro p
  rw [hcov p]
  omega

theorem solveLevels_cons (b vpn ppn n i : Nat) (rest : List Nat) :
    solveLevels b vpn ppn n (i :: rest) =
      if wrappingSub64 vpn ppn % alignInFrames b i ≠ 0 ∨ n < alignInFrames b i
      then solveLevels b vpn ppn n rest
      else solveInner b vpn n (fallingTo0 i) none [] := rfl

theorem solveLevels_cases (b vpn ppn n : Nat) : ∀ ls : List Nat,
    (solveLevels b vpn ppn n ls = [] ∧
      ∀ i ∈ ls, wrappingSub64 vpn ppn % alignInFrames b i ≠ 0 ∨ n < alignInFrames b i)
    ∨ ∃ i ∈ ls, alignInFrames b i ≤ n ∧
        solveLevels b vpn ppn n ls = solveInner b vpn n (fallingTo0 i) none [] := by
  intro ls
  induction ls with
  | nil => left; exact ⟨rfl, by simp⟩
  | cons i rest ih =>
    by_cases hc : wrappingSub64 vpn ppn % alignInFrames b i ≠ 0 ∨ n < alignInFrames b i
    · rw [solveLevels_cons, if_pos hc]
      rcases ih with ⟨h1, h2⟩ | ⟨i2, hi2, hn2, he⟩
      · left
        refine ⟨h1, ?_⟩
        intro i3 hi3
        rcases List.mem_cons.mp hi3 with rfl | hi3
        · exact hc
        · exact h2 i3 hi3
      · right; exact ⟨i2, List.mem_cons_of_mem _ hi2, hn2, he⟩
    · rw [solveLevels_cons, if_neg hc]
      push_neg at hc
      right; exact ⟨i, List.mem_cons_self _ _, hc.2, rfl⟩

/-- Full correctness of `MapPairs::solve` for a 3-level mode with 9-bit
fan-out: the result exactly partitions `[vpn, vpn + n)` into nonempty,
aligned, level-valid, pairwise disjoint segments. -/
theorem mapPairsSolve_spec (vpn ppn n : Nat) :
    (∀ p, covers (mapPairsSolve 9 3 vpn ppn n) p ↔ (vpn ≤ p ∧ p < vpn + n))
    ∧ (∀ s ∈ mapPairsSolve 9 3 vpn ppn n,
        s.lo < s.hi ∧ alignInFrames 9 s.level ∣ s.lo ∧
          alignInFrames 9 s.level ∣ s.hi ∧ s.level ≤ 2)
    ∧ List.Pairwise segDisj (mapPairsSolve 9 3 vpn ppn n) := by
  rcases solveLevels_cases 9 vpn ppn n [2, 1, 0] with ⟨he, hall⟩ | ⟨i, hi, hn, he⟩
  · have h0 := hall 0 (by simp)
    have hn0 : n = 0 := by
      rcases h0 with h | h
      · exact absurd (Nat.mod_one _) h
      · have : alignInFrames 9 0 = 1 := rfl
        omega
    have hm : mapPairsSolve 9 3 vpn ppn n = [] := he
    rw [hm]
    refine ⟨?_, by simp, List.Pairwise.nil⟩
    intro p
    rw [covers_nil, false_iff]
    omega
  · obtain ⟨hcov, hmem, hpair⟩ := solveChosen_spec 9 vpn n i hn
    have hi2 : i ≤ 2 := by
      simp only [List.mem_cons, List.not_mem_nil, or_false] at hi
      rcases hi with rfl | rfl | rfl <;> omega
    have hm : mapPairsSolve 9 3 vpn ppn n = solveInner 9 vpn n (fallingTo0 i) none [] := he
    rw [hm]
    refine ⟨hcov, ?_, hpair⟩
    intro s hs
    obtain ⟨h1, h2, h3, h4⟩ := hmem s hs
    exact ⟨h1, h2, h3, by omega⟩

theorem solveInner_const (b vpn n : Nat) : ∀ (j : Nat) (ans : List MapSeg),
    alignInFrames b j ∣ vpn → alignInFrames b j ∣ (vpn + n) →
    solveInner b vpn n (fallingTo0 j) (some (vpn, vpn + n)) ans = ans := by
  intro j
  induction j with
  | zero =>
    intro ans h1 h2
    rw [show fallingTo0 0 = [0] from rfl, solveInner_cons_some, solveInner_nil,
      veAt_zero, vsAt_zero]
    simp
  | succ k ih =>
    intro ans h1 h2
    have he := veAt_eq_of_dvd b vpn (k + 1) h1
    have hs := vsAt_eq_of_dvd b vpn n (k + 1) h2
    rw [show fallingTo0 (k + 1) = (k + 1) :: fallingTo0 k from rfl,
      solveInner_cons_some, he, hs]
    rw [if_neg (by simp), if_neg (by simp)]
    simp only [List.append_nil]
    exact ih ans ((alignInFrames_dvd_succ b k).trans h1)
      ((alignInFrames_dvd_succ b k).trans h2)

/-- When both start pages and the count are multiples of level `i`'s
alignment, the inner loop entered at level `i` emits the single segment
`[vpn, vpn + n)` at level `i`. -/
theorem solveInner_single (b vpn n i : Nat)
    (hvpn : alignInFrames b i ∣ vpn) (hn : alignInFrames b i ∣ n) (hn0 : n ≠ 0) :
    solveInner b vpn n (fallingTo0 i) none [] = [MapSeg.mk i vpn (vpn + n)] := by
  cases i with
  | zero =>
    rw [show fallingTo0 0 = [0] from rfl, solveInner_cons_none, solveInner_nil,
      veAt_zero, vsAt_zero]
    rw [if_pos (show vpn ≠ vpn + n by omega)]
    simp
  | succ k =>
    have he := veAt_eq_of_dvd b vpn (k + 1) hvpn
    have hs := vsAt_eq_of_dvd b vpn n (k + 1) (Dvd.dvd.add hvpn hn)
    rw [show fallingTo0 (k + 1) = (k + 1) :: fallingTo0 k from rfl,
      solveInner_cons_none, he, hs]
    rw [if_pos (show vpn ≠ vpn + n by omega)]
    simp only [List.nil_append]
    exact solveInner_const b vpn n k [MapSeg.mk (k + 1) vpn (vpn + n)]
      ((alignInFrames_dvd_succ b k).trans hvpn)
      ((alignInFrames_dvd_succ b k).trans (Dvd.dvd.add hvpn hn))

/-- C1: for every starting virtual page `vpn`, physical page `ppn`, frame
count `n` and mode (Sv39 or Sv39x4), the segments produced by
`MapPairs::solve` are nonempty `(level, range)` pairs at valid levels that
are pairwise disjoint, leave no gaps, and whose union is exactly
`[vpn, vpn + n)`, with each range's endpoints multiples of its level's
alignment in frames. -/
theorem c1_solve_partitions (m : PagingModeTag) (vpn ppn n : Nat) :
    (∀ p, covers (m.solve vpn ppn n) p ↔ (vpn ≤ p ∧ p < vpn + n))
    ∧ List.Pairwise segDisj (m.solve vpn ppn n)
    ∧ (∀ s ∈ m.solve vpn ppn n,
        s.lo < s.hi ∧ s.level < m.maxPageLevels ∧
          alignInFrames m.entriesBits s.level ∣ s.lo ∧
          alignInFrames m.entriesBits s.level ∣ s.hi) := by
  cases m <;>
    exact ⟨(mapPairsSolve_spec vpn ppn n).1, (mapPairsSolve_spec vpn ppn n).2.2,
      fun s hs =>
        ⟨((mapPairsSolve_spec vpn ppn n).2.1 s hs).1,
         by have := ((mapPairsSolve_spec vpn ppn n).2.1 s hs).2.2.2
            show s.level < 3
            omega,
         ((mapPairsSolve_spec vpn ppn n).2.1 s hs).2.1,
         ((mapPairsSolve_spec vpn ppn n).2.1 s hs).2.2.1⟩⟩

/-- C6: `MapPairs::solve(0x90000, 0x50000, 666666, Sv39)` produces exactly
the four segments of `test_map_solve` — level 2 over `[786432, 1048576)`,
level 1 over `[589824, 786432)`, level 1 over `[1048576, 1256448)`, level 0
over `[1256448, 1256490)` — and, sorted by virtual page ascending, these
abut pairwise and concatenate exactly to `[0x90000, 0x90000 + 666666)`. -/
theorem c6_solve_test_vector :
    PagingModeTag.solve .sv39 0x90000 0x50000 666666 =
      [MapSeg.mk 2 786432 1048576, MapSeg.mk 1 589824 786432,
       MapSeg.mk 1 1048576 1256448, MapSeg.mk 0 1256448 1256490]
    ∧ List.Perm
        [MapSeg.mk 1 589824 786432, MapSeg.mk 2 786432 1048576,
         MapSeg.mk 1 1048576 1256448, MapSeg.mk 0 1256448 1256490]
        (PagingModeTag.solve .sv39 0x90000 0x50000 666666)
    ∧ List.Chain' (fun s t => s.hi = t.lo)
        [MapSeg.mk 1 589824 786432, MapSeg.mk 2 786432 1048576,
         MapSeg.mk 1 1048576 1256448, MapSeg.mk 0 1256448 1256490]
    ∧ (589824 = 0x90000 ∧ 1256490 = 0x90000 + 666666) := by
  refine ⟨by decide, by decide, by simp [List.chain'_cons], by decide⟩

/-- C9 counterexample: at `vpn = ppn = 1`, `n = 512` under Sv39, level 1
(alignment 512) is the coarsest level whose alignment divides `vpn - ppn`
and is at most `n`, and `n` is an exact multiple of 512 with
`vpn ≡ ppn (mod 512)`; yet the solver emits two level-0 segments, not the
single level-1 segment over `[1, 513)` the claim asserts. -/
theorem c9_counterexample :
    (wrappingSub64 1 1 % alignInFrames 9 1 = 0 ∧ alignInFrames 9 1 ≤ 512)
    ∧ ¬(wrappingSub64 1 1 % alignInFrames 9 2 = 0 ∧ alignInFrames 9 2 ≤ 512)
    ∧ alignInFrames 9 1 ∣ 512
    ∧ PagingModeTag.solve .sv39 1 1 512 = [MapSeg.mk 0 1 512, MapSeg.mk 0 512 513]
    ∧ PagingModeTag.solve .sv39 1 1 512 ≠ [MapSeg.mk 1 1 513] := by
  refine ⟨by decide, by decide, by decide, by decide, by decide⟩

/-- C9 amended: if additionally the starting virtual page itself is a
multiple of `A` (hence so is the physical page), where `A` is the alignment
of the coarsest level `i` whose alignment divides `vpn - ppn` and is at most
`n`, and `n` is an exact multiple of `A`, then `MapPairs::solve` emits
exactly one segment, at level `i`, covering the whole of `[vpn, vpn + n)`. -/
theorem c9_amended_aligned_single (m : PagingModeTag) (vpn ppn n i : Nat)
    (hi : i < 3)
    (hcond : wrappingSub64 vpn ppn % alignInFrames 9 i = 0 ∧ alignInFrames 9 i ≤ n)
    (hcoarse : ∀ j, i < j → j < 3 →
      ¬(wrappingSub64 vpn ppn % alignInFrames 9 j = 0 ∧ alignInFrames 9 j ≤ n))
    (hvpn : alignInFrames 9 i ∣ vpn) (hn : alignInFrames 9 i ∣ n) :
    m.solve vpn ppn n = [MapSeg.mk i vpn (vpn + n)] := by
  have hn0 : n ≠ 0 := by
    have := alignInFrames_pos 9 i
    omega
  have hpass : ¬(wrappingSub64 vpn ppn % alignInFrames 9 i ≠ 0 ∨ n < alignInFrames 9 i) := by
    push_neg
    exact ⟨hcond.1, hcond.2⟩
  have hfail : ∀ j, i < j → j < 3 →
      (wrappingSub64 vpn ppn % alignInFrames 9 j ≠ 0 ∨ n < alignInFrames 9 j) := by
    intro j h1 h2
    by_cases hx : wrappingSub64 vpn ppn % alignInFrames 9 j = 0
    · right
      by_contra hy
      exact hcoarse j h1 h2 ⟨hx, by omega⟩
    · left; exact hx
  have hgoal : solveLevels 9 vpn ppn n [2, 1, 0] = [MapSeg.mk i vpn (vpn + n)] := by
    interval_cases i
    · rw [solveLevels_cons, if_pos (hfail 2 (by omega) (by omega)),
        solveLevels_cons, if_pos (hfail 1 (by omega) (by omega)),
        solveLevels_cons, if_neg hpass]
      exact solveInner_single 9 vpn n 0 hvpn hn hn0
    · rw [solveLevels_cons, if_pos (hfail 2 (by omega) (by omega)),
        solveLevels_cons, if_neg hpass]
      exact solveInner_single 9 vpn n 1 hvpn hn hn0
    · rw [solveLevels_cons, if_neg hpass]
      exact solveInner_single 9 vpn n 2 hvpn hn hn0
  cases m <;> exact hgoal

/-- Witness for the amended C9 at `vpn = ppn = 512`, `n = 512`, level 1. -/
theorem c9_amended_aligned_single_witness :
    PagingModeTag.solve .sv39 512 512 512 = [MapSeg.mk 1 512 1024] :=
  c9_amended_aligned_single .sv39 512 512 512 1 (by decide) (by decide)
    (fun j h1 h2 => by interval_cases j; decide) (by decide) (by decide)

/-! ### Frame allocator: range arithmetic and trace invariants -/

theorem isWithinRange_true_iff (p b e : Nat) :
    isWithinRange p b e = true ↔
      ((b ≤ e ∧ b ≤ p ∧ p < e) ∨ (e < b ∧ (b ≤ p ∨ p < e))) := by
  unfold isWithinRange
  by_cases h : b ≤ e
  · rw [if_pos h]
    simp only [Bool.and_eq_true, decide_eq_true_eq]
    omega
  · rw [if_neg h]
    simp only [Bool.or_eq_true, decide_eq_true_eq]
    omega

theorem isWithinRange_false_iff (p b e : Nat) :
    isWithinRange p b e = false ↔
      ¬((b ≤ e ∧ b ≤ p ∧ p < e) ∨ (e < b ∧ (b ≤ p ∨ p < e))) := by
  rw [← isWithinRange_true_iff]
  cases isWithinRange p b e <;> simp

theorem isWithinRange_self {b e : Nat} (h : b ≠ e) : isWithinRange b b e = true := by
  rw [isWithinRange_true_iff]
  omega

theorem isWithinRange_next_self {b e : Nat} (hb : b < 2 ^ 64) (he : e < 2 ^ 64) :
    isWithinRange b (nextPage b) e = false := by
  rw [isWithinRange_false_iff]
  unfold nextPage
  by_cases hlast : b + 1 < 2 ^ 64
  · rw [Nat.mod_eq_of_lt hlast]
    omega
  · rw [show b + 1 = 2 ^ 64 from by omega, Nat.mod_self]
    omega

theorem isWithinRange_step {q b e : Nat} (hb : b < 2 ^ 64) (he : e < 2 ^ 64)
    (hne : b ≠ e)
    (h : isWithinRange q (nextPage b) e = true) : isWithinRange q b e = true := by
  rw [isWithinRange_true_iff] at *
  unfold nextPage at h
  by_cases hlast : b + 1 < 2 ^ 64
  · rw [Nat.mod_eq_of_lt hlast] at h
    omega
  · rw [show b + 1 = 2 ^ 64 from by omega, Nat.mod_self] at h
    omega

theorem nextPage_lt (b : Nat) : nextPage b < 2 ^ 64 :=
  Nat.mod_lt _ (by norm_num)

theorem pop_decomp {l : List Nat} {q : Nat} (h : l.getLast? = some q) :
    l.dropLast ++ [q] = l :=
  List.dropLast_append_getLast? q (by simp [h, Option.mem_def])

theorem pop_mem {l : List Nat} {q : Nat} (h : l.getLast? = some q) : q ∈ l := by
  rw [← pop_decomp h]
  simp

theorem pop_nodup {l : List Nat} {q : Nat} (h : l.getLast? = some q)
    (hn : l.Nodup) : l.dropLast.Nodup ∧ q ∉ l.dropLast := by
  rw [← pop_decomp h] at hn
  rw [List.nodup_append] at hn
  exact ⟨hn.1, fun hq => hn.2.2 hq (by simp)⟩

theorem pop_mem_dropLast {l : List Nat} {q p : Nat} (h : l.getLast? = some q) :
    p ∈ l.dropLast ↔ (p ∈ l ∧ p ≠ q) ∨ (p ∈ l.dropLast ∧ p = q) := by
  constructor
  · intro hp
    by_cases hpq : p = q
    · right; exact ⟨hp, hpq⟩
    · left
      refine ⟨?_, hpq⟩
      rw [← pop_decomp h]
      exact List.mem_append_left _ hp
  · intro hp
    rcases hp with ⟨hp, hpq⟩ | ⟨hp, _⟩
    · rw [← pop_decomp h] at hp
      rcases List.mem_append.mp hp with hp | hp
      · exact hp
      · simp at hp
        exact absurd hp hpq
    · exact hp

theorem runFrom_range_mono : ∀ (ops : List FOp) (s st : StackFrameAllocator),
    (runFrom s ops).2 = some st →
    s.current < 2 ^ 64 → s.endp < 2 ^ 64 →
    st.current < 2 ^ 64 ∧ st.endp = s.endp ∧
      ∀ q, isWithinRange q st.current st.endp = true →
        isWithinRange q s.current s.endp = true := by
  intro ops
  induction ops with
  | nil =>
    intro s st h hb he
    simp only [runFrom] at h
    cases h
    exact ⟨hb, rfl, fun q hq => hq⟩
  | cons op rest ih =>
    intro s st h hb he
    cases op with
    | alloc =>
      rcases hrec : s.recycled.getLast? with _ | q
      · by_cases hce : s.current = s.endp
        · simp only [runFrom, allocateFrame, hrec, if_pos hce] at h
          exact ih s st h hb he
        · simp only [runFrom, allocateFrame, hrec, if_neg hce] at h
          obtain ⟨h1, h2, h3⟩ := ih _ st h (nextPage_lt _) he
          refine ⟨h1, h2, fun q hq => ?_⟩
          exact isWithinRange_step hb he hce (h3 q hq)
      · simp only [runFrom, allocateFrame, hrec] at h
        exact ih { s with recycled := s.recycled.dropLast } st h hb he
    | dealloc p =>
      rcases hdea : deallocateFrame s p with _ | s2
      · simp only [runFrom, hdea] at h
        cases h
      · simp only [runFrom, hdea] at h
        have hs2ce : s2.current = s.current ∧ s2.endp = s.endp := by
          unfold deallocateFrame at hdea
          split at hdea
          · cases hdea
          · cases hdea; exact ⟨rfl, rfl⟩
        obtain ⟨h1, h2, h3⟩ := ih s2 st h (by rw [hs2ce.1]; exact hb)
          (by rw [hs2ce.2]; exact he)
        rw [hs2ce.1] at h3
        rw [hs2ce.2] at h2
        exact ⟨h1, h2, by rw [← hs2ce.2]; exact h3⟩

/-- `deallocate_frame` characterised: it panics (`none`) exactly when the
page is inside `[current, end)` or already recycled, and otherwise pushes
the page onto the recycled stack. -/
theorem deallocateFrame_eq (s : StackFrameAllocator) (p : Nat) :
    deallocateFrame s p =
      if isWithinRange p s.current s.endp = true ∨ p ∈ s.recycled then none
      else some { s with recycled := s.recycled ++ [p] } := by
  unfold deallocateFrame
  by_cases h1 : isWithinRange p s.current s.endp = true
  · rw [if_pos (by simp [h1]), if_pos (Or.inl h1)]
  · by_cases h2 : p ∈ s.recycled
    · rw [if_pos (by simp [h2]), if_pos (Or.inr h2)]
    · rw [if_neg (by simp [h1, h2]), if_neg (by simp [h1, h2])]

theorem runFrom_unallocated_never_issued :
    ∀ (ops : List FOp) (s st : StackFrameAllocator),
    s.current < 2 ^ 64 → s.endp < 2 ^ 64 →
    (∀ q ∈ s.recycled, isWithinRange q s.current s.endp = false) →
    (runFrom s ops).2 = some st →
    ∀ p, isWithinRange p st.current st.endp = true →
      FEvent.allocOk p ∉ (runFrom s ops).1 := by
  intro ops
  induction ops with
  | nil =>
    intro s st hb he hrec h p hp
    simp [runFrom]
  | cons op rest ih =>
    intro s st hb he hrec h p hp
    cases op with
    | alloc =>
      rcases hrecl : s.recycled.getLast? with _ | q
      · have hremp : s.recycled = [] := by
          cases hl : s.recycled with
          | nil => rfl
          | cons x t =>
            rw [hl] at hrecl
            rw [List.getLast?_eq_getLast_of_ne_nil (List.cons_ne_nil x t)] at hrecl
            cases hrecl
        by_cases hce : s.current = s.endp
        · simp only [runFrom, allocateFrame, hrecl, if_pos hce] at h ⊢
          intro hmem
          rcases List.mem_cons.mp hmem with hx | hx
          · cases hx
          · exact ih s st hb he hrec h p hp hx
        · simp only [runFrom, allocateFrame, hrecl, if_neg hce] at h ⊢
          intro hmem
          obtain ⟨hst, hend, hmono⟩ :=
            runFrom_range_mono rest _ st h (nextPage_lt _) he
          rcases List.mem_cons.mp hmem with hx | hx
          · cases hx
            have h1 : isWithinRange s.current (nextPage s.current) s.endp = true :=
              hmono _ hp
            rw [isWithinRange_next_self hb he] at h1
            cases h1
          · refine ih { s with current := nextPage s.current } st
              (nextPage_lt s.current) he ?_ h p hp hx
            intro x hx2
            have hx3 : x ∈ s.recycled := hx2
            rw [hremp] at hx3
            cases hx3
      · simp only [runFrom, allocateFrame, hrecl] at h ⊢
        intro hmem
        obtain ⟨hst, hend, hmono⟩ := runFrom_range_mono rest _ st h hb he
        rcases List.mem_cons.mp hmem with hx | hx
        · cases hx
          have h1 : isWithinRange p s.current s.endp = true := hmono _ hp
          rw [hrec p (pop_mem hrecl)] at h1
          cases h1
        · refine ih { s with recycled := s.recycled.dropLast } st hb he ?_ h p hp hx
          intro x hx2
          have hx3 : x ∈ s.recycled.dropLast := hx2
          have hx4 : x ∈ s.recycled := by
            rw [← pop_decomp hrecl]
            exact List.mem_append_left _ hx3
          exact hrec x hx4
    | dealloc p0 =>
      rcases hdea : deallocateFrame s p0 with _ | s2
      · simp only [runFrom, hdea] at h
        cases h
      · simp only [runFrom, hdea] at h ⊢
        intro hmem
        rw [deallocateFrame_eq] at hdea
        by_cases hcnd : isWithinRange p0 s.current s.endp = true ∨ p0 ∈ s.recycled
        · rw [if_pos hcnd] at hdea
          cases hdea
        · rw [if_neg hcnd] at hdea
          cases hdea
          obtain ⟨hc1, hc2⟩ := not_or.mp hcnd
          rcases List.mem_cons.mp hmem with hx | hx
          · cases hx
          · refine ih { s with recycled := s.recycled ++ [p0] } st hb he ?_ h p hp hx
            intro x hx2
            have hx3 : x ∈ s.recycled ++ [p0] := hx2
            rcases List.mem_append.mp hx3 with hx4 | hx4
            · exact hrec x hx4
            · have hxp : x = p0 := by simpa using hx4
              subst hxp
              show isWithinRange x s.current s.endp = false
              rw [isWithinRange_false_iff]
              rw [isWithinRange_true_iff] at hc1
              exact hc1

theorem conf_cons (p : Nat) (st : PSt) (e : FEvent) (evs : List FEvent) :
    Conf p st (e :: evs) =
      match confStep p st e with
      | none => False
      | some st2 => Conf p st2 evs := rfl

theorem confStep_allocOk_eq (p q : Nat) (st : PSt) (hq : q = p)
    (h : st ≠ PSt.inflight) : confStep p st (FEvent.allocOk q) = some PSt.inflight := by
  cases st with
  | inflight => exact absurd rfl h
  | fresh =>
    show (if q = p then some PSt.inflight else some PSt.fresh) = some PSt.inflight
    rw [if_pos hq]
  | recycled =>
    show (if q = p then some PSt.inflight else some PSt.recycled) = some PSt.inflight
    rw [if_pos hq]

theorem confStep_allocOk_ne (p q : Nat) (st : PSt) (hq : ¬(q = p)) :
    confStep p st (FEvent.allocOk q) = some st := by
  cases st with
  | inflight =>
    show (if q = p then none else some PSt.inflight) = some PSt.inflight
    rw [if_neg hq]
  | fresh =>
    show (if q = p then some PSt.inflight else some PSt.fresh) = some PSt.fresh
    rw [if_neg hq]
  | recycled =>
    show (if q = p then some PSt.inflight else some PSt.recycled) = some PSt.recycled
    rw [if_neg hq]

theorem confStep_deallocOk_eq (p q : Nat) (st : PSt) (hq : q = p)
    (h : st ≠ PSt.recycled) : confStep p st (FEvent.deallocOk q) = some PSt.recycled := by
  cases st with
  | recycled => exact absurd rfl h
  | fresh =>
    show (if q = p then some PSt.recycled else some PSt.fresh) = some PSt.recycled
    rw [if_pos hq]
  | inflight =>
    show (if q = p then some PSt.recycled else some PSt.inflight) = some PSt.recycled
    rw [if_pos hq]

theorem confStep_deallocOk_ne (p q : Nat) (st : PSt) (hq : ¬(q = p)) :
    confStep p st (FEvent.deallocOk q) = some st := by
  cases st with
  | recycled =>
    show (if q = p then none else some PSt.recycled) = some PSt.recycled
    rw [if_neg hq]
  | fresh =>
    show (if q = p then some PSt.recycled else some PSt.fresh) = some PSt.fresh
    rw [if_neg hq]
  | inflight =>
    show (if q = p then some PSt.recycled else some PSt.inflight) = some PSt.inflight
    rw [if_neg hq]

theorem confStep_allocFail (p : Nat) (st : PSt) :
    confStep p st FEvent.allocFail = some st := rfl

theorem confStep_panicked (p : Nat) (st : PSt) :
    confStep p st FEvent.panicked = some st := rfl

theorem confStep_allocOk_self_inflight (p : Nat) :
    confStep p PSt.inflight (FEvent.allocOk p) = none := by
  show (if p = p then none else some PSt.inflight) = none
  rw [if_pos rfl]

theorem confStep_deallocOk_self_recycled (p : Nat) :
    confStep p PSt.recycled (FEvent.deallocOk p) = none := by
  show (if p = p then none else some PSt.recycled) = none
  rw [if_pos rfl]

theorem pstOf_inflight {p : Nat} (s : StackFrameAllocator) {out : List Nat}
    (h : p ∈ out) : pstOf p s out = PSt.inflight := by
  unfold pstOf
  rw [if_pos h]

theorem pstOf_recycledSt {p : Nat} {s : StackFrameAllocator} {out : List Nat}
    (h1 : p ∉ out) (h2 : p ∈ s.recycled) : pstOf p s out = PSt.recycled := by
  unfold pstOf
  rw [if_neg h1, if_pos h2]

theorem pstOf_fresh {p : Nat} {s : StackFrameAllocator} {out : List Nat}
    (h1 : p ∉ out) (h2 : p ∉ s.recycled) : pstOf p s out = PSt.fresh := by
  unfold pstOf
  rw [if_neg h1, if_neg h2]

theorem pstOf_congr (p : Nat) (s s2 : StackFrameAllocator) (out out2 : List Nat)
    (h1 : p ∈ out ↔ p ∈ out2) (h2 : p ∈ s.recycled ↔ p ∈ s2.recycled) :
    pstOf p s out = pstOf p s2 out2 := by
  unfold pstOf
  by_cases ho : p ∈ out
  · rw [if_pos ho, if_pos (h1.mp ho)]
  · rw [if_neg ho, if_neg (fun hx => ho (h1.mpr hx))]
    by_cases hr : p ∈ s.recycled
    · rw [if_pos hr, if_pos (h2.mp hr)]
    · rw [if_neg hr, if_neg (fun hx => hr (h2.mpr hx))]

/-- Every trace of the frame allocator conforms, for every page `p`, to the
per-page automaton: a page in flight is never issued again, a page in the
recycled pool is never deallocated again. -/
theorem runFrom_conf : ∀ (ops : List FOp) (s : StackFrameAllocator) (out : List Nat),
    FaInv s out → ∀ p, Conf p (pstOf p s out) (runFrom s ops).1 := by
  intro ops
  induction ops with
  | nil => intro s out hInv p; exact trivial
  | cons op rest ih =>
    intro s out hInv p
    obtain ⟨hbc, hbe, hOutN, hRecN, hOutRec, hOutRange, hRecRange⟩ := hInv
    cases op with
    | alloc =>
      rcases hrecl : s.recycled.getLast? with _ | q
      · have hremp : s.recycled = [] := by
          cases hl : s.recycled with
          | nil => rfl
          | cons x t =>
            rw [hl] at hrecl
            rw [List.getLast?_eq_getLast_of_ne_nil (List.cons_ne_nil x t)] at hrecl
            cases hrecl
        by_cases hce : s.current = s.endp
        · -- allocation failure: state unchanged
          simp only [runFrom, allocateFrame, hrecl, if_pos hce]
          rw [conf_cons, confStep_allocFail]
          exact ih s out ⟨hbc, hbe, hOutN, hRecN, hOutRec, hOutRange, hRecRange⟩ p
        · -- watermark allocation of s.current
          simp only [runFrom, allocateFrame, hrecl, if_neg hce]
          have hcout : s.current ∉ out := by
            intro hx
            have h1 := hOutRange s.current hx
            rw [isWithinRange_self hce] at h1
            cases h1
          have hInv2 : FaInv { s with current := nextPage s.current }
              (s.current :: out) := by
            refine ⟨nextPage_lt _, hbe, ?_, ?_, ?_, ?_, ?_⟩
            · exact List.nodup_cons.mpr ⟨hcout, hOutN⟩
            · show s.recycled.Nodup
              exact hRecN
            · intro x hx
              show x ∉ s.recycled
              rw [hremp]
              exact List.not_mem_nil x
            · intro x hx
              show isWithinRange x (nextPage s.current) s.endp = false
              rcases List.mem_cons.mp hx with rfl | hx
              · exact isWithinRange_next_self hbc hbe
              · cases hx2 : isWithinRange x (nextPage s.current) s.endp
                · rfl
                · have h3 := isWithinRange_step hbc hbe hce hx2
                  rw [hOutRange x hx] at h3
                  cases h3
            · intro x hx
              have hx2 : x ∈ s.recycled := hx
              rw [hremp] at hx2
              cases hx2
          by_cases hpc : s.current = p
          · have hpf : pstOf p s out = PSt.fresh := by
              refine pstOf_fresh (fun hx => ?_) (fun hx => ?_)
              · exact hcout (hpc ▸ hx)
              · rw [hremp] at hx
                cases hx
            rw [conf_cons, confStep_allocOk_eq p s.current _ hpc (by rw [hpf]; intro hx; cases hx)]
            have h2 := ih { s with current := nextPage s.current } (s.current :: out) hInv2 p
            rw [pstOf_inflight _ (by rw [hpc]; exact List.mem_cons_self _ _)] at h2
            exact h2
          · rw [conf_cons, confStep_allocOk_ne p s.current _ hpc]
            have h2 := ih { s with current := nextPage s.current } (s.current :: out) hInv2 p
            rw [pstOf_congr p { s with current := nextPage s.current } s
              (s.current :: out) out
              (by
                constructor
                · intro hx
                  rcases List.mem_cons.mp hx with hx | hx
                  · exact absurd hx.symm hpc
                  · exact hx
                · exact fun hx => List.mem_cons_of_mem _ hx)
              Iff.rfl] at h2
            exact h2
      · -- pop of the most recently recycled page q
        simp only [runFrom, allocateFrame, hrecl]
        have hqmem : q ∈ s.recycled := pop_mem hrecl
        have hqout : q ∉ out := fun hx => hOutRec q hx hqmem
        obtain ⟨hdropN, hqdrop⟩ := pop_nodup hrecl hRecN
        have hInv2 : FaInv { s with recycled := s.recycled.dropLast } (q :: out) := by
          refine ⟨hbc, hbe, List.nodup_cons.mpr ⟨hqout, hOutN⟩, hdropN, ?_, ?_, ?_⟩
          · intro x hx
            show x ∉ s.recycled.dropLast
            rcases List.mem_cons.mp hx with rfl | hx
            · exact hqdrop
            · intro hd
              have hd2 : x ∈ s.recycled := by
                rw [← pop_decomp hrecl]
                exact List.mem_append_left _ hd
              exact hOutRec x hx hd2
          · intro x hx
            show isWithinRange x s.current s.endp = false
            rcases List.mem_cons.mp hx with hxq | hx
            · rw [hxq]
              exact hRecRange q hqmem
            · exact hOutRange x hx
          · intro x hx
            have hd2 : x ∈ s.recycled := by
              rw [← pop_decomp hrecl]
              exact List.mem_append_left _ hx
            exact hRecRange x hd2
        by_cases hpq : q = p
        · have hps : pstOf p s out = PSt.recycled :=
            pstOf_recycledSt (hpq ▸ hqout) (hpq ▸ hqmem)
          rw [conf_cons, confStep_allocOk_eq p q _ hpq (by rw [hps]; intro hx; cases hx)]
          have h2 := ih { s with recycled := s.recycled.dropLast } (q :: out) hInv2 p
          rw [pstOf_inflight _ (by rw [hpq]; exact List.mem_cons_self _ _)] at h2
          exact h2
        · rw [conf_cons, confStep_allocOk_ne p q _ hpq]
          have h2 := ih { s with recycled := s.recycled.dropLast } (q :: out) hInv2 p
          rw [pstOf_congr p { s with recycled := s.recycled.dropLast } s
            (q :: out) out
            (by
              constructor
              · intro hx
                rcases List.mem_cons.mp hx with hx | hx
                · exact absurd hx.symm hpq
                · exact hx
              · exact fun hx => List.mem_cons_of_mem _ hx)
            (by
              show p ∈ s.recycled.dropLast ↔ p ∈ s.recycled
              constructor
              · intro hx
                rw [← pop_decomp hrecl]
                exact List.mem_append_left _ hx
              · intro hx
                rw [← pop_decomp hrecl] at hx
                rcases List.mem_append.mp hx with hx | hx
                · exact hx
                · have : p = q := by simpa using hx
                  exact absurd this.symm hpq)] at h2
          exact h2
    | dealloc p0 =>
      rcases hdea : deallocateFrame s p0 with _ | s2
      · simp only [runFrom, hdea]
        rw [conf_cons, confStep_panicked]
        exact trivial
      · simp only [runFrom, hdea]
        rw [deallocateFrame_eq] at hdea
        by_cases hcnd : isWithinRange p0 s.current s.endp = true ∨ p0 ∈ s.recycled
        · rw [if_pos hcnd] at hdea
          cases hdea
        · rw [if_neg hcnd] at hdea
          obtain ⟨hc1, hc2⟩ := not_or.mp hcnd
          cases hdea
          have hInv2 : FaInv { s with recycled := s.recycled ++ [p0] } (out.erase p0) := by
            refine ⟨hbc, hbe, hOutN.erase p0, ?_, ?_, ?_, ?_⟩
            · show (s.recycled ++ [p0]).Nodup
              rw [List.nodup_append]
              refine ⟨hRecN, List.nodup_singleton p0, ?_⟩
              intro x hx hx2
              have : x = p0 := by simpa using hx2
              exact hc2 (this ▸ hx)
            · intro x hx
              show x ∉ s.recycled ++ [p0]
              have hx2 := (List.Nodup.mem_erase_iff hOutN).mp hx
              intro hmem
              rcases List.mem_append.mp hmem with hm | hm
              · exact hOutRec x hx2.2 hm
              · have : x = p0 := by simpa using hm
                exact hx2.1 this
            · intro x hx
              show isWithinRange x s.current s.endp = false
              exact hOutRange x (List.mem_of_mem_erase hx)
            · intro x hx
              show isWithinRange x s.current s.endp = false
              have hx2 : x ∈ s.recycled ++ [p0] := hx
              rcases List.mem_append.mp hx2 with hm | hm
              · exact hRecRange x hm
              · have : x = p0 := by simpa using hm
                subst this
                cases hx3 : isWithinRange x s.current s.endp
                · rfl
                · exact absurd hx3 hc1
          by_cases hpp : p0 = p
          · have hne : pstOf p s out ≠ PSt.recycled := by
              by_cases ho : p ∈ out
              · rw [pstOf_inflight _ ho]
                intro hx; cases hx
              · rw [pstOf_fresh ho (hpp ▸ hc2)]
                intro hx; cases hx
            rw [conf_cons, confStep_deallocOk_eq p p0 _ hpp hne]
            have h2 := ih { s with recycled := s.recycled ++ [p0] } (out.erase p0) hInv2 p
            rw [pstOf_recycledSt
              (fun hx => ((List.Nodup.mem_erase_iff hOutN).mp hx).1 hpp.symm)
              (by
                show p ∈ s.recycled ++ [p0]
                exact List.mem_append_right _ (by simp [hpp]))] at h2
            exact h2
          · rw [conf_cons, confStep_deallocOk_ne p p0 _ hpp]
            have h2 := ih { s with recycled := s.recycled ++ [p0] } (out.erase p0) hInv2 p
            rw [pstOf_congr p { s with recycled := s.recycled ++ [p0] } s
              (out.erase p0) out
              (List.mem_erase_of_ne (fun h => hpp h.symm))
              (by
                show p ∈ s.recycled ++ [p0] ↔ p ∈ s.recycled
                constructor
                · intro hx
                  rcases List.mem_append.mp hx with hm | hm
                  · exact hm
                  · have : p = p0 := by simpa using hm
                    exact absurd this.symm hpp
                · exact fun hx => List.mem_append_left _ hx)] at h2
            exact h2

theorem conf_suffix (p : Nat) : ∀ (l m : List FEvent) (st : PSt),
    Conf p st (l ++ m) → ∃ st2, Conf p st2 m := by
  intro l
  induction l with
  | nil => intro m st h; exact ⟨st, h⟩
  | cons e t ih =>
    intro m st h
    rw [List.cons_append, conf_cons] at h
    rcases hstep : confStep p st e with _ | st2
    · rw [hstep] at h
      exact h.elim
    · rw [hstep] at h
      exact ih m st2 h

theorem conf_count_zero (p : Nat) : ∀ (l2 l3 : List FEvent),
    Conf p PSt.recycled (l2 ++ FEvent.allocOk p :: l3) →
    FEvent.allocOk p ∉ l2 →
    List.count (FEvent.deallocOk p) l2 = 0 := by
  intro l2
  induction l2 with
  | nil => intro l3 h hn; rfl
  | cons e t ih =>
    intro l3 h hn
    have hne : e ≠ FEvent.allocOk p := fun hh => hn (hh ▸ List.mem_cons_self e t)
    have hnt : FEvent.allocOk p ∉ t := fun hm => hn (List.mem_cons_of_mem _ hm)
    rw [List.cons_append, conf_cons] at h
    cases e with
    | allocOk q =>
      have hq : ¬(q = p) := fun hh => hne (by rw [hh])
      rw [confStep_allocOk_ne p q _ hq] at h
      have h2 : Conf p PSt.recycled (t ++ FEvent.allocOk p :: l3) := h
      rw [List.count_cons]
      simp [ih l3 h2 hnt, hq]
    | allocFail =>
      rw [confStep_allocFail] at h
      have h2 : Conf p PSt.recycled (t ++ FEvent.allocOk p :: l3) := h
      rw [List.count_cons]
      simp [ih l3 h2 hnt]
    | panicked =>
      rw [confStep_panicked] at h
      have h2 : Conf p PSt.recycled (t ++ FEvent.allocOk p :: l3) := h
      rw [List.count_cons]
      simp [ih l3 h2 hnt]
    | deallocOk q =>
      by_cases hq : q = p
      · rw [hq, confStep_deallocOk_self_recycled p] at h
        exact h.elim
      · rw [confStep_deallocOk_ne p q _ hq] at h
        have h2 : Conf p PSt.recycled (t ++ FEvent.allocOk p :: l3) := h
        rw [List.count_cons]
        simp [ih l3 h2 hnt, hq]

theorem conf_count_one (p : Nat) : ∀ (l2 l3 : List FEvent),
    Conf p PSt.inflight (l2 ++ FEvent.allocOk p :: l3) →
    FEvent.allocOk p ∉ l2 →
    List.count (FEvent.deallocOk p) l2 = 1 := by
  intro l2
  induction l2 with
  | nil =>
    intro l3 h hn
    rw [List.nil_append, conf_cons, confStep_allocOk_self_inflight p] at h
    exact h.elim
  | cons e t ih =>
    intro l3 h hn
    have hne : e ≠ FEvent.allocOk p := fun hh => hn (hh ▸ List.mem_cons_self e t)
    have hnt : FEvent.allocOk p ∉ t := fun hm => hn (List.mem_cons_of_mem _ hm)
    rw [List.cons_append, conf_cons] at h
    cases e with
    | allocOk q =>
      have hq : ¬(q = p) := fun hh => hne (by rw [hh])
      rw [confStep_allocOk_ne p q _ hq] at h
      have h2 : Conf p PSt.inflight (t ++ FEvent.allocOk p :: l3) := h
      rw [List.count_cons]
      simp [ih l3 h2 hnt, hq]
    | allocFail =>
      rw [confStep_allocFail] at h
      have h2 : Conf p PSt.inflight (t ++ FEvent.allocOk p :: l3) := h
      rw [List.count_cons]
      simp [ih l3 h2 hnt]
    | panicked =>
      rw [confStep_panicked] at h
      have h2 : Conf p PSt.inflight (t ++ FEvent.allocOk p :: l3) := h
      rw [List.count_cons]
      simp [ih l3 h2 hnt]
    | deallocOk q =>
      by_cases hq : q = p
      · rw [confStep_deallocOk_eq p q _ hq (by intro hx; cases hx)] at h
        have h2 : Conf p PSt.recycled (t ++ FEvent.allocOk p :: l3) := h
        have hz := conf_count_zero p t l3 h2 hnt
        rw [List.count_cons]
        simp [hz, hq]
      · rw [confStep_deallocOk_ne p q _ hq] at h
        have h2 : Conf p PSt.inflight (t ++ FEvent.allocOk p :: l3) := h
        rw [List.count_cons]
        simp [ih l3 h2 hnt, hq]

/-- C2: along every call sequence against a `StackFrameAllocator`, a page
`p` returned by `allocate_frame` is never returned by a later
`allocate_frame` call unless `deallocate_frame(p)` happened exactly once in
between: between two consecutive returns of `p` in the event trace there is
exactly one successful deallocation of `p`. -/
theorem c2_no_double_issue (start endp : Nat) (ops : List FOp) (p : Nat)
    (l1 l2 l3 : List FEvent)
    (hb : start < 2 ^ 64) (he : endp < 2 ^ 64)
    (hsplit : (runFrom (StackFrameAllocator.mk start endp []) ops).1 =
      l1 ++ FEvent.allocOk p :: (l2 ++ FEvent.allocOk p :: l3))
    (hno : FEvent.allocOk p ∉ l2) :
    List.count (FEvent.deallocOk p) l2 = 1 := by
  have hInv : FaInv (StackFrameAllocator.mk start endp []) [] := by
    refine ⟨hb, he, List.nodup_nil, List.nodup_nil, ?_, ?_, ?_⟩ <;>
      intro q hq <;> cases hq
  have hconf := runFrom_conf ops (StackFrameAllocator.mk start endp []) [] hInv p
  rw [hsplit] at hconf
  obtain ⟨st2, h2⟩ := conf_suffix p l1 _ _ hconf
  rw [conf_cons] at h2
  rcases hstep : confStep p st2 (FEvent.allocOk p) with _ | st3
  · rw [hstep] at h2
    exact h2.elim
  · rw [hstep] at h2
    have hst3 : st3 = PSt.inflight := by
      cases st2 with
      | inflight => rw [confStep_allocOk_self_inflight p] at hstep; cases hstep
      | fresh =>
        rw [confStep_allocOk_eq p p _ rfl (by intro hx; cases hx)] at hstep
        cases hstep
        rfl
      | recycled =>
        rw [confStep_allocOk_eq p p _ rfl (by intro hx; cases hx)] at hstep
        cases hstep
        rfl
    rw [hst3] at h2
    exact conf_count_one p l2 l3 h2 hno

/-- Witness for C2 at a concrete double-issue trace with one deallocation
in between. -/
theorem c2_no_double_issue_witness :
    List.count (FEvent.deallocOk 0x80000) [FEvent.deallocOk 0x80000] = 1 :=
  c2_no_double_issue 0x80000 0x100000
    [FOp.alloc, FOp.dealloc 0x80000, FOp.alloc] 0x80000
    [] [FEvent.deallocOk 0x80000] [] (by decide) (by decide) (by decide) (by decide)

/-- C7 counterexample: starting from the region `[0x80000, 0x100000)` of the
source's `test_frame_alloc` and allocating once, the page 0 was never
returned by `allocate_frame` and is not in the recycled set, yet
`deallocate_frame(0)` returns normally (it does not panic), because 0 lies
outside the unallocated range `[current, end)` that the code checks. -/
theorem c7_counterexample :
    (runFrom (StackFrameAllocator.mk 0x80000 0x100000 []) [FOp.alloc]).1 =
      [FEvent.allocOk 0x80000]
    ∧ (runFrom (StackFrameAllocator.mk 0x80000 0x100000 []) [FOp.alloc]).2 =
      some (StackFrameAllocator.mk 0x80001 0x100000 [])
    ∧ FEvent.allocOk 0 ∉
        (runFrom (StackFrameAllocator.mk 0x80000 0x100000 []) [FOp.alloc]).1
    ∧ deallocateFrame (StackFrameAllocator.mk 0x80001 0x100000 []) 0 ≠ none := by
  refine ⟨by decide, by decide, by decide, by decide⟩

/-- C7 amended: in every reachable `StackFrameAllocator` state,
`deallocate_frame(p)` panics exactly when `p` lies within the unallocated
range `[current, end)` or is already in the recycled set; every page of the
unallocated range was indeed never returned by `allocate_frame`, but a
never-returned page outside both sets is accepted without a panic. -/
theorem c7_amended_dealloc_guard (start endp : Nat) (ops : List FOp)
    (st : StackFrameAllocator) (p : Nat)
    (hb : start < 2 ^ 64) (he : endp < 2 ^ 64)
    (hrun : (runFrom (StackFrameAllocator.mk start endp []) ops).2 = some st) :
    (deallocateFrame st p = none ↔
      isWithinRange p st.current st.endp = true ∨ p ∈ st.recycled)
    ∧ (isWithinRange p st.current st.endp = true →
        FEvent.allocOk p ∉ (runFrom (StackFrameAllocator.mk start endp []) ops).1) := by
  constructor
  · rw [deallocateFrame_eq]
    by_cases hc : isWithinRange p st.current st.endp = true ∨ p ∈ st.recycled
    · rw [if_pos hc]
      simp [hc]
    · rw [if_neg hc]
      simp [hc]
  · intro hp
    exact runFrom_unallocated_never_issued ops (StackFrameAllocator.mk start endp [])
      st hb he (fun q hq => absurd hq (List.not_mem_nil q)) hrun p hp

/-- Witness for the amended C7 after one allocation from the test region. -/
theorem c7_amended_dealloc_guard_witness :
    (deallocateFrame (StackFrameAllocator.mk 0x80001 0x100000 []) 0x90000 = none ↔
      isWithinRange 0x90000 0x80001 0x100000 = true ∨
        (0x90000 : Nat) ∈ ([] : List Nat))
    ∧ (isWithinRange 0x90000 0x80001 0x100000 = true →
        FEvent.allocOk 0x90000 ∉
          (runFrom (StackFrameAllocator.mk 0x80000 0x100000 []) [FOp.alloc]).1) :=
  c7_amended_dealloc_guard 0x80000 0x100000 [FOp.alloc]
    (StackFrameAllocator.mk 0x80001 0x100000 []) 0x90000
    (by decide) (by decide) (by decide)

/-! ### ASID allocator -/

theorem allocAsidSeq_aux : ∀ (k m c : Nat), m = c + k → m < 2 ^ 16 →
    allocAsidSeq (StackAsidAllocator.mk c false m []) (k + 2) =
      (List.range (k + 1)).map (fun x => some (c + x)) ++ [none] := by
  intro k
  induction k with
  | zero =>
    intro m c hm hlt
    have hcm : c = m := by omega
    subst hcm
    simp [allocAsidSeq, allocateAsid, List.range_succ]
  | succ k ih =>
    intro m c hm hlt
    have hne : ¬(c = m) := by omega
    have hle : ¬(m ≤ c) := by omega
    have hstep : allocateAsid (StackAsidAllocator.mk c false m []) =
        (some c, StackAsidAllocator.mk (c + 1) false m []) := by
      simp [allocateAsid, nextAsid, hne, hle]
      omega
    have hrec : allocAsidSeq (StackAsidAllocator.mk c false m []) (k + 1 + 2) =
        (allocateAsid (StackAsidAllocator.mk c false m [])).1 ::
          allocAsidSeq (allocateAsid (StackAsidAllocator.mk c false m [])).2 (k + 2) := rfl
    have hlist : (List.range (k + 1 + 1)).map (fun x => some (c + x)) ++ [none] =
        some c :: ((List.range (k + 1)).map (fun x => some (c + 1 + x)) ++ [none]) := by
      rw [List.range_succ_eq_map, List.map_cons, List.map_map]
      have hfun : ((fun x => some (c + x)) ∘ Nat.succ) = fun x => some (c + 1 + x) := by
        funext x
        exact congrArg some (by omega)
      rw [hfun]
      simp
    rw [hrec, hstep, hlist, ih m (c + 1) (by omega) hlt]

/-- C4: for every maximum tag `T` (including `T = 0`), a fresh
`StackAsidAllocator` returns tags `0, 1, …, T` in order from successive
`allocate_asid` calls and the `(T+2)`-th call fails with `AsidAllocError`;
and after any successful `deallocate_asid(k)`, the very next
`allocate_asid` returns `k` (before any not-yet-issued tag). -/
theorem c4_asid_sequence (T : Nat) (s : StackAsidAllocator) (k : Nat)
    (s2 : StackAsidAllocator) (hT : T < 2 ^ 16)
    (hdea : deallocateAsid s k = some s2) :
    allocAsidSeq (StackAsidAllocator.new T) (T + 2) =
      (List.range (T + 1)).map some ++ [none]
    ∧ (allocateAsid s2).1 = some k := by
  constructor
  · have h := allocAsidSeq_aux T T 0 (by omega) hT
    rw [show StackAsidAllocator.new T = StackAsidAllocator.mk 0 false T [] from rfl]
    rw [h]
    have hfun : (fun x => some (0 + x)) = (some : Nat → Option Nat) := by
      funext x
      exact congrArg some (by omega)
    rw [hfun]
  · unfold deallocateAsid at hdea
    by_cases hc : ((nextAsid k s.maxAsid).isNone || s.recycled.contains k) = true
    · rw [if_pos hc] at hdea
      cases hdea
    · rw [if_neg hc] at hdea
      cases hdea
      show (allocateAsid { s with recycled := s.recycled ++ [k] }).1 = some k
      unfold allocateAsid
      rw [show (s.recycled ++ [k]).getLast? = some k by
        rw [List.getLast?_append_cons s.recycled k []]
        rfl]

/-- Witness for C4 with `T = 1` and a deallocation of tag 0. -/
theorem c4_asid_sequence_witness :
    allocAsidSeq (StackAsidAllocator.new 1) (1 + 2) =
      (List.range (1 + 1)).map some ++ [none]
    ∧ (allocateAsid (StackAsidAllocator.mk 1 false 5 [0])).1 = some 0 :=
  c4_asid_sequence 1 (StackAsidAllocator.mk 1 false 5 [])
    0 (StackAsidAllocator.mk 1 false 5 [0]) (by decide) (by decide)

/-- C8 counterexample: with maximum tag 1, `allocate_asid` legitimately
returns the maximum tag 1 (flipping the exhausted flag), the tag is not in
the recycled set, yet `deallocate_asid(1)` panics, because `next_asid`
returns `None` for every tag at or above the maximum. -/
theorem c8_counterexample :
    allocateAsid (StackAsidAllocator.new 1) =
      (some 0, StackAsidAllocator.mk 1 false 1 [])
    ∧ allocateAsid (StackAsidAllocator.mk 1 false 1 []) =
      (some 1, StackAsidAllocator.mk 1 true 1 [])
    ∧ (1 : Nat) ∉ (StackAsidAllocator.mk 1 true 1 []).recycled
    ∧ deallocateAsid (StackAsidAllocator.mk 1 true 1 []) 1 = none := by
  refine ⟨by decide, by decide, by decide, by decide⟩

/-- C8 amended: `deallocate_asid(tag)` aborts exactly when `tag` is at or
above the allocator's maximum or is already present in the recycled set;
any tag strictly below the maximum and not yet recycled is pushed onto the
recycled stack.  In particular deallocating the maximum tag itself — though
it is legitimately returned by `allocate_asid` — always aborts. -/
theorem c8_amended_dealloc_guard (s : StackAsidAllocator) (t : Nat) :
    deallocateAsid s t =
      if s.maxAsid ≤ t ∨ t ∈ s.recycled then none
      else some { s with recycled := s.recycled ++ [t] } := by
  unfold deallocateAsid nextAsid
  by_cases h1 : s.maxAsid ≤ t
  · rw [if_pos h1]
    simp [h1]
  · rw [if_neg h1]
    by_cases h2 : t ∈ s.recycled
    · simp [h1, h2]
    · simp [h1, h2]

/-! ### Page-table walk, Sv39x4 indices, cross-space translation -/

/-- C3: for every page-table memory, index function, root table and virtual
page, `find_ppn` walks levels 2, 1, 0 from the root and returns the
invalid-entry error at the first invalid slot, `Ok` with the entry and its
level at the first valid leaf, and the not-a-leaf-at-lowest-level error when
the level-0 entry is valid but not a leaf; the two failures are distinct
values of `PageError`. -/
theorem c3_find_ppn_walk (mem : Nat → Nat → Nat) (vpnIdx : Nat → Nat → Nat)
    (root vpn : Nat) :
    findPpn mem vpnIdx 3 root vpn = findPpnSpec mem vpnIdx root vpn
    ∧ PageError.InvalidEntry ≠ PageError.NotLeafInLowestPage := by
  refine ⟨?_, by intro h; cases h⟩
  show findPpnAux mem vpnIdx vpn root [2, 1, 0] = findPpnSpec mem vpnIdx root vpn
  unfold findPpnSpec
  by_cases h2 : slotValid (mem root (vpnIdx vpn 2)) = true
  · by_cases h2l : entryIsLeaf (mem root (vpnIdx vpn 2)) = true
    · simp [findPpnAux, h2, h2l]
    · by_cases h1 : slotValid (mem (entryGetPpn (mem root (vpnIdx vpn 2)))
        (vpnIdx vpn 1)) = true
      · by_cases h1l : entryIsLeaf (mem (entryGetPpn (mem root (vpnIdx vpn 2)))
          (vpnIdx vpn 1)) = true
        · simp [findPpnAux, h2, h2l, h1, h1l]
        · by_cases h0 : slotValid (mem (entryGetPpn (mem (entryGetPpn
            (mem root (vpnIdx vpn 2))) (vpnIdx vpn 1))) (vpnIdx vpn 0)) = true
          · by_cases h0l : entryIsLeaf (mem (entryGetPpn (mem (entryGetPpn
              (mem root (vpnIdx vpn 2))) (vpnIdx vpn 1))) (vpnIdx vpn 0)) = true
            · simp [findPpnAux, h2, h2l, h1, h1l, h0, h0l]
            · simp [findPpnAux, h2, h2l, h1, h1l, h0, h0l]
          · simp [findPpnAux, h2, h2l, h1, h0]
      · simp [findPpnAux, h2, h2l, h1]
  · simp [findPpnAux, h2]

/-- The propositional unfolding of the `while` loop of
`translate_frame_read` (its defining equation). -/
theorem translateLoop_eq (mem : Nat → Nat → Nat) (vpnIdx : Nat → Nat → Nat)
    (bits frameBits maxLevels root : Nat)
    (vpn2 remaining curOffset entry lvl : Nat) (acc : List (Nat × Nat × Nat)) :
    translateLoop mem vpnIdx bits frameBits maxLevels root vpn2 remaining curOffset entry lvl acc =
  if remaining = 0 then Except.ok acc
  else
    let ppn := entryGetPpn entry
    let ps := pageSizeOf bits frameBits lvl
    let curLen := if remaining ≤ ps then remaining else ps
    let acc2 := acc ++ [(ppn, curOffset, curLen)]
    if remaining - curLen = 0 then Except.ok acc2
    else
      let vpn3 := (vpn2 + alignInFrames bits lvl) % 2 ^ 64
      match findPpn mem vpnIdx maxLevels root vpn3 with
      | Except.error e => Except.error e
      | Except.ok (entry2, lvl2) =>
        translateLoop mem vpnIdx bits frameBits maxLevels root vpn3
          (remaining - curLen) 0 entry2 lvl2 acc2 := by
  rw [translateLoop]

/-- C5 (code bug): reading 8000 bytes from virtual address 100 of a space
whose virtual pages 0 and 1 are mapped (level 0) to physical pages 10 and
20, `translate_frame_read` emits the fragments `(10, 100, 4096)` and
`(20, 0, 3904)`: fragment lengths are clamped to the full page size, not to
the bytes remaining after the starting offset, so the first fragment's
length 4096 differs from `min 8000 (4096 - 100) = 3996` required by the
claim (and `offset + length` overruns the leaf page). -/
theorem c5_translate_offset_bug :
    translateFrameRead memC5 sv39VpnIndex 9 12 3 100 100 8000 =
      Except.ok [(10, 100, 4096), (20, 0, 3904)]
    ∧ ¬(4096 = min 8000 (4096 - 100))
    ∧ 100 + 4096 > 4096 := by
  refine ⟨?_, by decide, by decide⟩
  have e0 : findPpn memC5 sv39VpnIndex 3 100 (100 >>> 12) = Except.ok (10243, 0) := rfl
  have e1 : findPpn memC5 sv39VpnIndex 3 100 1 = Except.ok (20483, 0) := rfl
  simp only [translateFrameRead, e0]
  rw [translateLoop_eq]
  simp only [show pageSizeOf 9 12 0 = 4096 from rfl,
    show entryGetPpn 10243 = 10 from rfl,
    show pageOffsetOf 9 12 100 0 = 100 from rfl,
    show (100 : Nat) >>> 12 = 0 from rfl,
    show alignInFrames 9 0 = 1 from rfl]
  norm_num
  simp only [e1]
  rw [translateLoop_eq]
  simp only [show pageSizeOf 9 12 0 = 4096 from rfl,
    show entryGetPpn 20483 = 20 from rfl]
  norm_num

/-- C10 counterexample: the Sv39x4 level-2 (root) index of virtual page
`0x8000000` is 512, which is not less than 512, the number of slots of the
`Sv39PageTable` the code reuses for the Sv39x4 root table; the index range
of `[0x8000000, 0x8000000 + 2^18)` at level 2 likewise contains 512. -/
theorem c10_counterexample :
    sv39x4VpnIndex 0x8000000 2 = 512
    ∧ ¬(sv39x4VpnIndex 0x8000000 2 < 512)
    ∧ sv39x4VpnIndexRange 0x8000000 (0x8000000 + 2 ^ 18) 2 = (512, 513)
    ∧ (sv39x4VpnIndexRange 0x8000000 (0x8000000 + 2 ^ 18) 2).1 ≤ 512
    ∧ 512 < (sv39x4VpnIndexRange 0x8000000 (0x8000000 + 2 ^ 18) 2).2
    ∧ ¬(512 < 512) := by
  refine ⟨by decide, by decide, by decide, by decide, by decide, by decide⟩

/-- C10 amended: the Sv39x4 level-2 index, and both bounds of the level-2
index range, are below 2048 (the slot count of the 16-KiB root table the
RISC-V specification requires) — but not below 512, so indexing the
512-slot `Sv39PageTable` that the code actually uses can go out of
bounds. -/
theorem c10_amended_root_index_bound (vpn vstart vend : Nat) :
    sv39x4VpnIndex vpn 2 < 2048
    ∧ (sv39x4VpnIndexRange vstart vend 2).1 < 2048
    ∧ (sv39x4VpnIndexRange vstart vend 2).2 < 2048 := by
  refine ⟨?_, ?_, ?_⟩
  · show (vpn >>> (2 * 9)) &&& sv39x4VpnMaskByLevel 2 < 2048
    have h := Nat.and_le_right (n := vpn >>> (2 * 9)) (m := sv39x4VpnMaskByLevel 2)
    have h2 : sv39x4VpnMaskByLevel 2 = 2047 := rfl
    omega
  · show (vstart >>> (2 * 9)) &&& sv39x4VpnMaskByLevel 2 < 2048
    have h := Nat.and_le_right (n := vstart >>> (2 * 9)) (m := sv39x4VpnMaskByLevel 2)
    have h2 : sv39x4VpnMaskByLevel 2 = 2047 := rfl
    omega
  · show (vend >>> (2 * 9)) &&& sv39x4VpnMaskByLevel 2 < 2048
    have h := Nat.and_le_right (n := vend >>> (2 * 9)) (m := sv39x4VpnMaskByLevel 2)
    have h2 : sv39x4VpnMaskByLevel 2 = 2047 := rfl
    omega

example : PagingModeTag.solve .sv39 0x90000 0x50000 666666 =
    [MapSeg.mk 2 786432 1048576, MapSeg.mk 1 589824 786432,
     MapSeg.mk 1 1048576 1256448, MapSeg.mk 0 1256448 1256490] := by decide

example : PagingModeTag.solve .sv39 0x90001 0x50001 77777 =
    [MapSeg.mk 1 590336 667136, MapSeg.mk 0 589825 590336,
     MapSeg.mk 0 667136 667602] := by decide

example : PagingModeTag.solve .sv39x4 0x12345 0x22345 888888 =
    [MapSeg.mk 1 74752 963072, MapSeg.mk 0 74565 74752,
     MapSeg.mk 0 963072 963453] := by decide

example : PagingModeTag.solve .sv39x4 0x400000 0x200000 0x40000000 =
    [MapSeg.mk 2 4194304 1077936128] := by decide

example : PagingModeTag.solve .sv39 1 1 512 =
    [MapSeg.mk 0 1 512, MapSeg.mk 0 512 513] := by decide
